import Mathlib

/-
Verification of tilseg/seg.py (post-processing pipeline of the TILseg project).

Embedding conventions:
* Python floats are modelled as exact rationals (ℚ).  np.pi is the exact
  rational value of the float64 constant 3.141592653589793… used by numpy,
  namely 884279719003555 / 2^48.
* A cv2 contour is abstracted by the three quantities the code extracts from
  it with cv2 (external library): cv2.contourArea, cv2.arcLength and the
  radius returned by cv2.minEnclosingCircle.
* numpy arrays are modelled as total functions from indices, with the extents
  carried separately; in-place mutation of an array cell becomes a pointwise
  functional update; a numpy IndexError / ValueError becomes Except.error.
-/

namespace Tilseg

/-- Errors raised by the numpy/validation layer: an out-of-bounds numpy index
and a raised ValueError. -/
inductive CvErr where
  | indexError : CvErr
  | valueError : CvErr
deriving DecidableEq

/-- Abstraction of a cv2 contour by the three measurements seg.py takes of it:
cv2.contourArea, cv2.arcLength(closed) and the radius of
cv2.minEnclosingCircle. -/
structure Contour where
  area : ℚ
  perimeter : ℚ
  radius : ℚ
deriving DecidableEq

/-- Exact rational value of the float64 constant np.pi
(3.141592653589793… = 884279719003555 * 2^-48). -/
def np_pi : ℚ := 884279719003555 / 281474976710656

/-- Roundness as computed in filter_boolean and csv_results_compiler:
perimeter**2 / (4 * np.pi * area). -/
def roundness (c : Contour) : ℚ := c.perimeter ^ 2 / (4 * np_pi * c.area)

/-- Embedding of seg.filter_boolean: meets_crit starts False; when
area != 0 and perimeter != 0 it becomes
all([area > 200, area < 2000, roundness < 3.0]). -/
def filter_boolean (contour : Contour) : Bool :=
  if contour.area ≠ 0 ∧ contour.perimeter ≠ 0 then
    decide (contour.area > 200 ∧ contour.area < 2000 ∧ roundness contour < 3)
  else
    false

/-- Modelled from the spec: cv2.findContours (external library, not part of
this repository) is described as extracting boundary contours of connected
foreground regions of the mask; the spec fixes only that a mask with no
foreground pixel has no region and hence no contour.  The list oracle stands
for whatever cv2 returns on a mask that does have foreground pixels. -/
def findContours (H W : ℕ) (img_mask : ℕ → ℕ → ℕ) (oracle : List Contour) :
    List Contour :=
  if (List.range H).all (fun j => (List.range W).all (fun k => img_mask j k == 0))
  then [] else oracle

/-- Embedding of seg.contour_generator: run cv2.findContours on the mask,
keep the contours passing filter_boolean (in order), return them with their
count. -/
def contour_generator (H W : ℕ) (img_mask : ℕ → ℕ → ℕ)
    (oracle : List Contour) : List Contour × ℕ :=
  let contours := findContours H W img_mask oracle
  let contours_mod := contours.filter filter_boolean
  (contours_mod, contours_mod.length)

/-- Convenient concrete contour: a 20×20 filled square has area 400,
perimeter 80 (spec §8); its minimal enclosing circle radius is irrelevant to
the filter, 15 is used as a stand-in. -/
def c400 : Contour := ⟨400, 80, 15⟩

/-- C1: filter_boolean accepts exactly the contours with 200 < area < 2000 and
roundness < 3; it returns false whenever area = 0 or perimeter = 0, and it
rejects area exactly 200 and exactly 2000.  The hypothesis hgeo records the
geometric fact about cv2 measurements that a contour of zero arc length
encloses zero area (all its points coincide). -/
theorem filter_boolean_iff_thresholds (c : Contour)
    (hgeo : c.perimeter = 0 → c.area = 0) :
    (filter_boolean c = true ↔
      (200 < c.area ∧ c.area < 2000 ∧ roundness c < 3)) ∧
    (c.area = 0 ∨ c.perimeter = 0 → filter_boolean c = false) ∧
    ((c.area = 200 ∨ c.area = 2000) → filter_boolean c = false) := by
  have hrej : c.area = 0 ∨ c.perimeter = 0 → filter_boolean c = false := by
    rintro (h | h) <;> simp [filter_boolean, h]
  refine ⟨⟨?_, ?_⟩, hrej, ?_⟩
  · intro h
    by_cases hg : c.area ≠ 0 ∧ c.perimeter ≠ 0
    · rw [filter_boolean, if_pos hg, decide_eq_true_eq] at h
      exact ⟨h.1, h.2.1, h.2.2⟩
    · rw [filter_boolean, if_neg hg] at h
      exact absurd h (by simp)
  · rintro ⟨h1, h2, h3⟩
    have ha : c.area ≠ 0 := ne_of_gt (lt_trans (by norm_num) h1)
    have hp : c.perimeter ≠ 0 := by
      intro hp0
      rw [hgeo hp0] at h1
      norm_num at h1
    rw [filter_boolean, if_pos ⟨ha, hp⟩, decide_eq_true_eq]
    exact ⟨h1, h2, h3⟩
  · rintro (h | h) <;>
      [ { by_cases hp : c.perimeter = 0
          · exact hrej (Or.inr hp)
          · rw [filter_boolean, if_pos ⟨by rw [h]; norm_num, hp⟩]
            rw [h]
            norm_num };
        { by_cases hp : c.perimeter = 0
          · exact hrej (Or.inr hp)
          · rw [filter_boolean, if_pos ⟨by rw [h]; norm_num, hp⟩]
            rw [h]
            norm_num } ]

/-- C1 witness: the theorem instantiated at the 20×20 square contour
(area 400, perimeter 80), whose roundness 4/np_pi is below 3. -/
theorem filter_boolean_iff_thresholds_witness :
    (filter_boolean c400 = true ↔
      (200 < c400.area ∧ c400.area < 2000 ∧ roundness c400 < 3)) ∧
    (c400.area = 0 ∨ c400.perimeter = 0 → filter_boolean c400 = false) ∧
    ((c400.area = 200 ∨ c400.area = 2000) → filter_boolean c400 = false) :=
  filter_boolean_iff_thresholds c400 (by intro h; exact absurd h (by norm_num [c400]))

/-- C6: an all-zero mask yields an empty contour list and count 0 from
contour_generator (via the spec-modelled cv2.findContours). -/
theorem contour_generator_zero_mask (H W : ℕ) (img_mask : ℕ → ℕ → ℕ)
    (oracle : List Contour)
    (hz : ∀ j k, j < H → k < W → img_mask j k = 0) :
    contour_generator H W img_mask oracle = ([], 0) := by
  have hall : (List.range H).all
      (fun j => (List.range W).all (fun k => img_mask j k == 0)) = true := by
    rw [List.all_eq_true]
    intro j hj
    rw [List.all_eq_true]
    intro k hk
    exact beq_iff_eq.mpr (hz j k (List.mem_range.mp hj) (List.mem_range.mp hk))
  rw [contour_generator, findContours, if_pos hall]
  rfl

/-- C6 witness: the theorem instantiated at a 2×2 all-zero mask with a
nonempty oracle list. -/
theorem contour_generator_zero_mask_witness :
    contour_generator 2 2 (fun _ _ => 0) [c400] = ([], 0) :=
  contour_generator_zero_mask 2 2 (fun _ _ => 0) [c400]
    (fun _ _ _ _ => rfl)

/-- Model of the pandas DataFrame assembled by csv_results_compiler: the
ordered column names and the rows of the underlying data_sum array. -/
structure DataFrame where
  columns : List String
  rows : List (List ℚ)
deriving DecidableEq

/-- Row ele[0] of data_sum as filled by the loop body of csv_results_compiler:
[temp_area, temp_per, temp_roundness, temp_circle_area]. -/
def contour_row (c : Contour) : List ℚ :=
  [c.area, c.perimeter, c.perimeter ^ 2 / (4 * np_pi * c.area),
    np_pi * c.radius ^ 2]

/-- Embedding of seg.csv_results_compiler: data_sum receives, for contour
ele[0] in order, the row [area, perimeter, roundness, bounding-circle-area];
the frame carries the four fixed column names.  Writing Compiled_Data.csv to
disk is I/O and outside the model. -/
def csv_results_compiler (cont_list : List Contour) : DataFrame :=
  { columns := ["Area", "Perimeter", "Roundness", "Bounding Circle Area"]
    rows := cont_list.foldl (fun data_sum c => data_sum ++ [contour_row c]) [] }

theorem csv_rows_foldl_eq_map (l : List Contour) :
    ∀ acc : List (List ℚ),
      l.foldl (fun data_sum c => data_sum ++ [contour_row c]) acc =
        acc ++ l.map contour_row := by
  induction l with
  | nil => intro acc; simp
  | cons c t ih => intro acc; simp [ih]

/-- C4: the metrics table has exactly one row per contour of the input list,
in the same order, with columns Area, Perimeter, Roundness, Bounding Circle
Area, where the roundness entry is perimeter^2/(4 np_pi area) and the
bounding-circle-area entry is np_pi radius^2; on the empty contour list the
table has the four columns and no rows. -/
theorem csv_results_compiler_table (cont_list : List Contour) :
    (csv_results_compiler cont_list).columns =
      ["Area", "Perimeter", "Roundness", "Bounding Circle Area"] ∧
    (csv_results_compiler cont_list).rows = cont_list.map (fun c =>
      [c.area, c.perimeter, c.perimeter ^ 2 / (4 * np_pi * c.area),
        np_pi * c.radius ^ 2]) ∧
    (csv_results_compiler cont_list).rows.length = cont_list.length ∧
    (csv_results_compiler []).rows = [] := by
  refine ⟨rfl, ?_, ?_, rfl⟩
  · rw [csv_results_compiler]
    rw [csv_rows_foldl_eq_map]
    simp [contour_row]
  · rw [csv_results_compiler]
    rw [csv_rows_foldl_eq_map]
    simp

/-- A mask handed to immune_cluster_analyzer, paired with the contour list the
external cv2.findContours yields on it (see findContours). -/
abbrev MaskIn := (ℕ → ℕ → ℕ) × List Contour

/-- Loop state of immune_cluster_analyzer: the accumulated contour_list and
count_list, and the running best index count_index. -/
structure ICAState where
  contour_list : List (List Contour)
  count_list : List ℕ
  count_index : ℕ
deriving DecidableEq

/-- Accepted-contour count contour_generator reports for a mask. -/
def mask_count (H W : ℕ) (m : MaskIn) : ℕ :=
  (contour_generator H W m.1 m.2).2

/-- Accepted-contour list contour_generator reports for a mask. -/
def mask_contours (H W : ℕ) (m : MaskIn) : List Contour :=
  (contour_generator H W m.1 m.2).1

/-- One iteration of the loop of immune_cluster_analyzer on mask ele: run
contour_generator, append contour_temp and contour_count, and move count_index
to the current position ele[0] (the number of masks already processed) exactly
when contour_count > count_list[count_index]. -/
def ica_step (H W : ℕ) (s : ICAState) (m : MaskIn) : ICAState :=
  let cg := contour_generator H W m.1 m.2
  let contour_list := s.contour_list ++ [cg.1]
  let count_list := s.count_list ++ [cg.2]
  let count_index :=
    if cg.2 > count_list.getD s.count_index 0 then s.count_list.length
    else s.count_index
  ⟨contour_list, count_list, count_index⟩

/-- Embedding of seg.immune_cluster_analyzer: fold the loop over the masks
starting from empty lists and count_index = 0, then compile
contour_list[count_index] into the csv table.  On an empty mask list the
indexing contour_list[0] is a python IndexError.  The final loop state is
returned alongside the compiled table. -/
def immune_cluster_analyzer (H W : ℕ) (masks : List MaskIn) :
    Except CvErr (ICAState × DataFrame) :=
  let s := masks.foldl (ica_step H W) ⟨[], [], 0⟩
  match s.contour_list.get? s.count_index with
  | none => .error .indexError
  | some sel => .ok (s, csv_results_compiler sel)

/-- Loop invariant of immune_cluster_analyzer after the masks in done have
been processed: the lists accumulate contour_generator results in order, and
count_index is the first index attaining the maximum accepted-contour count
seen so far. -/
def ica_inv (H W : ℕ) (done : List MaskIn) (s : ICAState) : Prop :=
  s.contour_list = done.map (mask_contours H W) ∧
  s.count_list = done.map (mask_count H W) ∧
  (done = [] → s.count_index = 0) ∧
  (done ≠ [] →
    s.count_index < done.length ∧
    (∀ j, j < done.length →
      (done.map (mask_count H W)).getD j 0 ≤
        (done.map (mask_count H W)).getD s.count_index 0) ∧
    (∀ j, j < s.count_index →
      (done.map (mask_count H W)).getD j 0 <
        (done.map (mask_count H W)).getD s.count_index 0))

theorem ica_inv_step (H W : ℕ) (done : List MaskIn) (m : MaskIn)
    (s : ICAState) (h : ica_inv H W done s) :
    ica_inv H W (done ++ [m]) (ica_step H W s m) := by
  obtain ⟨hcl, hct, hnil, hne⟩ := h
  have hslen : s.count_list.length = done.length := by
    rw [hct]; exact List.length_map _ _
  have hstate : ica_step H W s m =
      ⟨s.contour_list ++ [mask_contours H W m],
        s.count_list ++ [mask_count H W m],
        if (s.count_list ++ [mask_count H W m]).getD s.count_index 0 <
            mask_count H W m
        then done.length else s.count_index⟩ := by
    rw [ica_step]
    simp only [mask_contours, mask_count, hslen, gt_iff_lt]
  have hclen : (List.map (mask_count H W) done).length = done.length :=
    List.length_map _ _
  have hgA : ∀ j, j < done.length →
      (List.map (mask_count H W) done ++ [mask_count H W m]).getD j 0 =
        (List.map (mask_count H W) done).getD j 0 := by
    intro j hj
    exact List.getD_append _ _ _ _ (by rw [hclen]; exact hj)
  have hgB : (List.map (mask_count H W) done ++ [mask_count H W m]).getD
      done.length 0 = mask_count H W m := by
    rw [List.getD_append_right _ _ _ _ (le_of_eq hclen)]
    rw [hclen]
    simp
  rw [hstate]
  simp only [ica_inv, List.map_append, List.map_cons, List.map_nil]
  rw [hcl, hct]
  refine ⟨rfl, rfl, by simp, fun _ => ?_⟩
  by_cases hd : done = []
  · subst hd
    have h0 := hnil rfl
    rw [h0]
    simp only [List.map_nil, List.nil_append, List.getD_cons_zero,
      List.length_nil, List.length_cons, ite_self]
    refine ⟨by omega, ?_, ?_⟩
    · intro j hj
      have hj0 : j = 0 := by simpa using hj
      subst hj0
      exact le_refl _
    · intro j hj
      exact absurd hj (Nat.not_lt_zero j)
  · obtain ⟨hlt, hmax, hstrict⟩ := hne hd
    have hci : (List.map (mask_count H W) done ++ [mask_count H W m]).getD
        s.count_index 0 =
        (List.map (mask_count H W) done).getD s.count_index 0 := hgA _ hlt
    rw [hci]
    have hlen1 : (done.length + 1 : ℕ) =
        done.length + 1 := rfl
    by_cases hcond : (List.map (mask_count H W) done).getD s.count_index 0 <
        mask_count H W m
    · rw [if_pos hcond]
      refine ⟨by simp, ?_, ?_⟩
      · intro j hj
        rw [hgB]
        have hj2 : j < done.length ∨ j = done.length := by
          simp only [List.length_append, List.length_cons, List.length_nil] at hj
          omega
        rcases hj2 with hj2 | hj2
        · rw [hgA j hj2]
          exact le_of_lt (lt_of_le_of_lt (hmax j hj2) hcond)
        · subst hj2
          rw [hgB]
      · intro j hj
        rw [hgB]
        rw [hgA j hj]
        exact lt_of_le_of_lt (hmax j hj) hcond
    · rw [if_neg hcond]
      push_neg at hcond
      refine ⟨by simp only [List.length_append, List.length_cons,
        List.length_nil]; omega, ?_, ?_⟩
      · intro j hj
        rw [hci]
        have hj2 : j < done.length ∨ j = done.length := by
          simp only [List.length_append, List.length_cons, List.length_nil] at hj
          omega
        rcases hj2 with hj2 | hj2
        · rw [hgA j hj2]
          exact hmax j hj2
        · subst hj2
          rw [hgB]
          exact hcond
      · intro j hj
        rw [hci]
        rw [hgA j (lt_trans hj hlt)]
        exact hstrict j hj

theorem ica_inv_foldl (H W : ℕ) (rest : List MaskIn) :
    ∀ (done : List MaskIn) (s : ICAState), ica_inv H W done s →
      ica_inv H W (done ++ rest) (rest.foldl (ica_step H W) s) := by
  induction rest with
  | nil => intro done s h; simpa using h
  | cons m t ih =>
    intro done s h
    have h2 := ica_inv_step H W done m s h
    have h3 := ih (done ++ [m]) _ h2
    simpa using h3

theorem ica_inv_final (H W : ℕ) (masks : List MaskIn) :
    ica_inv H W masks (masks.foldl (ica_step H W) ⟨[], [], 0⟩) := by
  have h0 : ica_inv H W [] ⟨[], [], 0⟩ := by
    rw [ica_inv]
    simp
  simpa using ica_inv_foldl H W masks [] _ h0

theorem immune_cluster_analyzer_eq_ok (H W : ℕ) (masks : List MaskIn)
    (h : (masks.foldl (ica_step H W) ⟨[], [], 0⟩).count_index <
      (masks.foldl (ica_step H W) ⟨[], [], 0⟩).contour_list.length) :
    immune_cluster_analyzer H W masks =
      .ok (masks.foldl (ica_step H W) ⟨[], [], 0⟩,
        csv_results_compiler
          ((masks.foldl (ica_step H W) ⟨[], [], 0⟩).contour_list.getD
            (masks.foldl (ica_step H W) ⟨[], [], 0⟩).count_index [])) := by
  have hget : (masks.foldl (ica_step H W) ⟨[], [], 0⟩).contour_list.get?
      (masks.foldl (ica_step H W) ⟨[], [], 0⟩).count_index =
      some ((masks.foldl (ica_step H W) ⟨[], [], 0⟩).contour_list.getD
        (masks.foldl (ica_step H W) ⟨[], [], 0⟩).count_index []) := by
    rw [List.getD_eq_getD_get?, List.get?_eq_get h]
    rfl
  simp only [immune_cluster_analyzer, hget]

theorem immune_cluster_analyzer_ok_state (H W : ℕ) (masks : List MaskIn)
    (s : ICAState) (df : DataFrame)
    (h : immune_cluster_analyzer H W masks = .ok (s, df)) :
    s = masks.foldl (ica_step H W) ⟨[], [], 0⟩ := by
  simp only [immune_cluster_analyzer] at h
  cases hg : (masks.foldl (ica_step H W) ⟨[], [], 0⟩).contour_list.get?
      (masks.foldl (ica_step H W) ⟨[], [], 0⟩).count_index with
  | none =>
    rw [hg] at h
    exact absurd h (by simp)
  | some v =>
    rw [hg] at h
    simp only [Except.ok.injEq, Prod.mk.injEq] at h
    exact h.1.symm

theorem mem_getD_map_contours (H W : ℕ) (masks : List MaskIn) (i : ℕ)
    (c : Contour)
    (hc : c ∈ (List.map (mask_contours H W) masks).getD i []) :
    filter_boolean c = true := by
  by_cases hi : i < (List.map (mask_contours H W) masks).length
  · have hi2 : i < masks.length := by
      rw [List.length_map] at hi
      exact hi
    rw [List.getD_eq_getElem _ _ hi] at hc
    rw [List.getElem_map] at hc
    have : c ∈ (findContours H W (masks[i].1) (masks[i].2)).filter
        filter_boolean := by
      simpa [mask_contours, contour_generator] using hc
    exact List.of_mem_filter this
  · rw [List.getD_eq_default _ _ (le_of_not_lt hi)] at hc
    exact absurd hc (List.not_mem_nil c)

theorem filter_boolean_area_big (c : Contour) (h : filter_boolean c = true) :
    200 < c.area := by
  rw [filter_boolean] at h
  by_cases hg : c.area ≠ 0 ∧ c.perimeter ≠ 0
  · rw [if_pos hg, decide_eq_true_eq] at h
    exact h.1
  · rw [if_neg hg] at h
    exact absurd h (by simp)

theorem np_pi_pos : 0 < np_pi := by norm_num [np_pi]

/-- C3: immune_cluster_analyzer selects the first cluster, scanning left to
right from best index 0, whose accepted-contour count is maximal: the final
count_index is in range, every cluster count is at most the selected count,
every cluster before the selected one has a strictly smaller count (so equal
counts leave the earlier index selected), and the compiled table is that of
the selected cluster's accepted contours. -/
theorem immune_cluster_analyzer_first_argmax (H W : ℕ) (masks : List MaskIn)
    (hne : masks ≠ []) :
    ∃ s df, immune_cluster_analyzer H W masks = .ok (s, df) ∧
      s.count_index < masks.length ∧
      (∀ j, j < masks.length →
        (masks.map (mask_count H W)).getD j 0 ≤
          (masks.map (mask_count H W)).getD s.count_index 0) ∧
      (∀ j, j < s.count_index →
        (masks.map (mask_count H W)).getD j 0 <
          (masks.map (mask_count H W)).getD s.count_index 0) ∧
      df = csv_results_compiler
        ((masks.map (mask_contours H W)).getD s.count_index []) := by
  obtain ⟨hcl, hct, hnil, hne2⟩ := ica_inv_final H W masks
  obtain ⟨hlt, hmax, hstrict⟩ := hne2 hne
  have hltc : (masks.foldl (ica_step H W) ⟨[], [], 0⟩).count_index <
      (masks.foldl (ica_step H W) ⟨[], [], 0⟩).contour_list.length := by
    rw [hcl, List.length_map]
    exact hlt
  refine ⟨masks.foldl (ica_step H W) ⟨[], [], 0⟩, _,
    immune_cluster_analyzer_eq_ok H W masks hltc, hlt, hmax, hstrict, ?_⟩
  rw [hcl]

/-- C3 witness: two masks with one qualifying contour each (equal counts);
the theorem applied to them, the tie broken toward index 0. -/
theorem immune_cluster_analyzer_first_argmax_witness :
    ∃ s df, immune_cluster_analyzer 1 1
        [((fun _ _ => 1), [c400]), ((fun _ _ => 1), [c400])] = .ok (s, df) ∧
      s.count_index <
        ([((fun _ _ => 1), [c400]), ((fun _ _ => 1), [c400])] :
          List MaskIn).length ∧
      (∀ j, j < ([((fun _ _ => 1), [c400]), ((fun _ _ => 1), [c400])] :
          List MaskIn).length →
        (([((fun _ _ => 1), [c400]), ((fun _ _ => 1), [c400])] :
          List MaskIn).map (mask_count 1 1)).getD j 0 ≤
          (([((fun _ _ => 1), [c400]), ((fun _ _ => 1), [c400])] :
            List MaskIn).map (mask_count 1 1)).getD s.count_index 0) ∧
      (∀ j, j < s.count_index →
        (([((fun _ _ => 1), [c400]), ((fun _ _ => 1), [c400])] :
          List MaskIn).map (mask_count 1 1)).getD j 0 <
          (([((fun _ _ => 1), [c400]), ((fun _ _ => 1), [c400])] :
            List MaskIn).map (mask_count 1 1)).getD s.count_index 0) ∧
      df = csv_results_compiler
        ((([((fun _ _ => 1), [c400]), ((fun _ _ => 1), [c400])] :
          List MaskIn).map (mask_contours 1 1)).getD s.count_index []) :=
  immune_cluster_analyzer_first_argmax 1 1
    [((fun _ _ => 1), [c400]), ((fun _ _ => 1), [c400])]
    (List.cons_ne_nil _ _)

/-- C10: every contour of the list immune_cluster_analyzer hands to
csv_results_compiler (the winning cluster's accepted contours) passes
filter_boolean, and the roundness divisor 4 np_pi area that
csv_results_compiler uses without a zero guard is nonzero on it: the
division-by-zero branch is unreachable from immune_cluster_analyzer. -/
theorem selected_contours_divisor_nonzero (H W : ℕ) (masks : List MaskIn)
    (s : ICAState) (df : DataFrame)
    (h : immune_cluster_analyzer H W masks = .ok (s, df)) (c : Contour)
    (hc : c ∈ s.contour_list.getD s.count_index []) :
    filter_boolean c = true ∧ 4 * np_pi * c.area ≠ 0 := by
  have hs := immune_cluster_analyzer_ok_state H W masks s df h
  obtain ⟨hcl, hct, hnil, hne2⟩ := ica_inv_final H W masks
  rw [hs] at hc
  rw [hcl] at hc
  have hfb := mem_getD_map_contours H W masks _ c hc
  refine ⟨hfb, ne_of_gt ?_⟩
  have harea := filter_boolean_area_big c hfb
  have h4 : (0 : ℚ) < 4 * np_pi := by
    have := np_pi_pos
    nlinarith
  nlinarith

/-- RGB pixel value. -/
abbrev Color := ℕ × ℕ × ℕ

/-- The black pixel written into overlays. -/
def black : Color := (0, 0, 0)

/-- colors_overlay: the fixed 4-entry palette of result_image_generator;
numpy indexing beyond its length raises IndexError. -/
def colors_overlay : List Color :=
  [(0, 0, 0), (255, 0, 0), (0, 255, 0), (0, 0, 255)]

/-- Joint state of the three arrays result_image_generator fills: final_arrays
(cluster, row, column) holds the per-cluster overlays, binary_arrays the
per-cluster masks, all_masks the combined color overlay; num_images records
the extent of the cluster axis of final_arrays and binary_arrays. -/
structure SegState where
  num_images : ℕ
  final_arrays : ℕ → ℕ → ℕ → Color
  binary_arrays : ℕ → ℕ → ℕ → ℕ
  all_masks : ℕ → ℕ → Color

/-- Functional update of one cell of a 2-index array. -/
def update2 {α : Type} (f : ℕ → ℕ → α) (a b : ℕ) (v : α) : ℕ → ℕ → α :=
  fun x y => if x = a ∧ y = b then v else f x y

/-- Functional update of one cell of a 3-index array. -/
def update3 {α : Type} (f : ℕ → ℕ → ℕ → α) (a b c : ℕ) (v : α) :
    ℕ → ℕ → ℕ → α :=
  fun x y z => if x = a ∧ y = b ∧ z = c then v else f x y z

/-- Embedding of seg.gen_base_arrays: num_clusts stacked copies of the
original image (final_array), an all-zero binary_array with num_clusts
layers, and an all-zero all_mask_array. -/
def gen_base_arrays (ori_image : ℕ → ℕ → Color) (num_clusts : ℕ) : SegState :=
  ⟨num_clusts, fun _ j k => ori_image j k, fun _ _ _ => 0, fun _ _ => black⟩

/-- Pixel coordinates (j, k), j < H, k < W, in the row-major order of the
double loop of result_image_generator. -/
def pixelList (H W : ℕ) : List (ℕ × ℕ) :=
  (List.range H).flatMap (fun j => (List.range W).map (fun k => (j, k)))

/-- img_clust.max() as a fold of Nat.max over all entries; equal to numpy for
a nonempty array (numpy raises on an empty one, so the theorems below assume
0 < H and 0 < W). -/
def np_max (H W : ℕ) (f : ℕ → ℕ → ℕ) : ℕ :=
  ((pixelList H W).map (fun p => f p.1 p.2)).foldl Nat.max 0

/-- The double loop of result_image_generator: at each pixel p, with
key = img_clust[p], set final_arrays[key][p] to black and
binary_arrays[key][p] to 1, and all_masks[p] to colors_overlay[key]; a key
beyond the palette raises IndexError, aborting the loop. -/
def run_pixels (img_clust : ℕ → ℕ → ℕ) :
    List (ℕ × ℕ) → SegState → Except CvErr SegState
  | [], s => .ok s
  | p :: rest, s =>
    match colors_overlay.get? (img_clust p.1 p.2) with
    | none => .error .indexError
    | some c =>
      run_pixels img_clust rest
        ⟨s.num_images,
          update3 s.final_arrays (img_clust p.1 p.2) p.1 p.2 black,
          update3 s.binary_arrays (img_clust p.1 p.2) p.1 p.2 1,
          update2 s.all_masks p.1 p.2 c⟩

/-- Embedding of seg.result_image_generator: num_clust = img_clust.max() + 1,
base arrays from gen_base_arrays, then the double loop over the label map in
row-major order. -/
def result_image_generator (H W : ℕ) (img_clust : ℕ → ℕ → ℕ)
    (original_image : ℕ → ℕ → Color) : Except CvErr SegState :=
  run_pixels img_clust (pixelList H W)
    (gen_base_arrays original_image (np_max H W img_clust + 1))

theorem mem_pixelList (H W : ℕ) (j k : ℕ) :
    (j, k) ∈ pixelList H W ↔ j < H ∧ k < W := by
  simp [pixelList]

theorem le_foldl_max (l : List ℕ) : ∀ init, init ≤ l.foldl Nat.max init := by
  induction l with
  | nil => intro init; exact le_refl _
  | cons a t ih =>
    intro init
    simp only [List.foldl_cons]
    exact le_trans (Nat.le_max_left init a) (ih (Nat.max init a))

theorem mem_le_foldl_max (l : List ℕ) (a : ℕ) :
    ∀ init, a ∈ l → a ≤ l.foldl Nat.max init := by
  induction l with
  | nil => intro init h; exact absurd h (List.not_mem_nil a)
  | cons b t ih =>
    intro init h
    simp only [List.foldl_cons]
    rcases List.mem_cons.mp h with h | h
    · subst h
      exact le_trans (Nat.le_max_right init a) (le_foldl_max t (Nat.max init a))
    · exact ih (Nat.max init b) h

theorem label_le_np_max (H W : ℕ) (img : ℕ → ℕ → ℕ) (j k : ℕ)
    (hj : j < H) (hk : k < W) : img j k ≤ np_max H W img := by
  rw [np_max]
  apply mem_le_foldl_max
  rw [List.mem_map]
  exact ⟨(j, k), (mem_pixelList H W j k).mpr ⟨hj, hk⟩, rfl⟩

theorem run_pixels_num (img : ℕ → ℕ → ℕ) (L : List (ℕ × ℕ)) :
    ∀ s s', run_pixels img L s = .ok s' → s'.num_images = s.num_images := by
  induction L with
  | nil =>
    intro s s' h
    simp only [run_pixels] at h
    injection h with h
    rw [h]
  | cons p T ih =>
    intro s s' h
    simp only [run_pixels] at h
    split at h
    · exact absurd h (by simp)
    · have hrec := ih _ _ h
      rw [hrec]

theorem run_pixels_binary (img : ℕ → ℕ → ℕ) (L : List (ℕ × ℕ)) :
    ∀ s s', run_pixels img L s = .ok s' →
      ∀ i j k, s'.binary_arrays i j k =
        if (j, k) ∈ L ∧ img j k = i then 1 else s.binary_arrays i j k := by
  induction L with
  | nil =>
    intro s s' h i j k
    simp only [run_pixels] at h
    injection h with h
    rw [h]
    simp
  | cons p T ih =>
    intro s s' h i j k
    simp only [run_pixels] at h
    split at h
    · exact absurd h (by simp)
    · rename_i c hg
      have hrec := ih _ _ h i j k
      rw [hrec]
      by_cases hT : (j, k) ∈ T ∧ img j k = i
      · rw [if_pos hT, if_pos ⟨List.mem_cons_of_mem _ hT.1, hT.2⟩]
      · rw [if_neg hT]
        show update3 s.binary_arrays (img p.1 p.2) p.1 p.2 1 i j k = _
        rw [update3]
        by_cases hp : i = img p.1 p.2 ∧ j = p.1 ∧ k = p.2
        · rw [if_pos hp]
          have hjk : (j, k) = p := Prod.ext hp.2.1 hp.2.2
          have himg : img j k = i := by
            rw [hp.2.1, hp.2.2, hp.1]
          rw [if_pos ⟨by rw [hjk]; exact List.mem_cons_self _ _, himg⟩]
        · rw [if_neg hp]
          have hneg : ¬((j, k) ∈ p :: T ∧ img j k = i) := by
            rintro ⟨hmem, himg⟩
            rcases List.mem_cons.mp hmem with heq | hmemT
            · have hj : j = p.1 := congrArg Prod.fst heq
              have hk : k = p.2 := congrArg Prod.snd heq
              rw [hj, hk] at himg
              exact hp ⟨himg.symm, hj, hk⟩
            · exact hT ⟨hmemT, himg⟩
          rw [if_neg hneg]

theorem run_pixels_final (img : ℕ → ℕ → ℕ) (L : List (ℕ × ℕ)) :
    ∀ s s', run_pixels img L s = .ok s' →
      ∀ i j k, s'.final_arrays i j k =
        if (j, k) ∈ L ∧ img j k = i then black else s.final_arrays i j k := by
  induction L with
  | nil =>
    intro s s' h i j k
    simp only [run_pixels] at h
    injection h with h
    rw [h]
    simp
  | cons p T ih =>
    intro s s' h i j k
    simp only [run_pixels] at h
    split at h
    · exact absurd h (by simp)
    · rename_i c hg
      have hrec := ih _ _ h i j k
      rw [hrec]
      by_cases hT : (j, k) ∈ T ∧ img j k = i
      · rw [if_pos hT, if_pos ⟨List.mem_cons_of_mem _ hT.1, hT.2⟩]
      · rw [if_neg hT]
        show update3 s.final_arrays (img p.1 p.2) p.1 p.2 black i j k = _
        rw [update3]
        by_cases hp : i = img p.1 p.2 ∧ j = p.1 ∧ k = p.2
        · rw [if_pos hp]
          have hjk : (j, k) = p := Prod.ext hp.2.1 hp.2.2
          have himg : img j k = i := by
            rw [hp.2.1, hp.2.2, hp.1]
          rw [if_pos ⟨by rw [hjk]; exact List.mem_cons_self _ _, himg⟩]
        · rw [if_neg hp]
          have hneg : ¬((j, k) ∈ p :: T ∧ img j k = i) := by
            rintro ⟨hmem, himg⟩
            rcases List.mem_cons.mp hmem with heq | hmemT
            · have hj : j = p.1 := congrArg Prod.fst heq
              have hk : k = p.2 := congrArg Prod.snd heq
              rw [hj, hk] at himg
              exact hp ⟨himg.symm, hj, hk⟩
            · exact hT ⟨hmemT, himg⟩
          rw [if_neg hneg]

theorem run_pixels_all_masks_untouched (img : ℕ → ℕ → ℕ) (L : List (ℕ × ℕ)) :
    ∀ s s', run_pixels img L s = .ok s' →
      ∀ j k, (j, k) ∉ L → s'.all_masks j k = s.all_masks j k := by
  induction L with
  | nil =>
    intro s s' h j k _
    simp only [run_pixels] at h
    injection h with h
    rw [h]
  | cons p T ih =>
    intro s s' h j k hnm
    simp only [run_pixels] at h
    split at h
    · exact absurd h (by simp)
    · rename_i c hg
      have hT : (j, k) ∉ T := fun hmem => hnm (List.mem_cons_of_mem _ hmem)
      rw [ih _ _ h j k hT]
      show update2 s.all_masks p.1 p.2 c j k = _
      rw [update2]
      have hne : ¬(j = p.1 ∧ k = p.2) := by
        rintro ⟨hj, hk⟩
        exact hnm (by rw [List.mem_cons]; exact Or.inl (Prod.ext hj hk))
      rw [if_neg hne]

theorem run_pixels_all_masks (img : ℕ → ℕ → ℕ) (L : List (ℕ × ℕ)) :
    ∀ s s', run_pixels img L s = .ok s' →
      ∀ j k, (j, k) ∈ L →
        colors_overlay.get? (img j k) = some (s'.all_masks j k) := by
  induction L with
  | nil =>
    intro s s' h j k hmem
    exact absurd hmem (List.not_mem_nil _)
  | cons p T ih =>
    intro s s' h j k hmem
    simp only [run_pixels] at h
    split at h
    · exact absurd h (by simp)
    · rename_i c hg
      by_cases hT : (j, k) ∈ T
      · exact ih _ _ h j k hT
      · have heq : (j, k) = p := by
          rcases List.mem_cons.mp hmem with heq | hmemT
          · exact heq
          · exact absurd hmemT hT
        have hj : j = p.1 := congrArg Prod.fst heq
        have hk : k = p.2 := congrArg Prod.snd heq
        have huntouched := run_pixels_all_masks_untouched img T _ _ h j k hT
        rw [huntouched]
        show _ = some (update2 s.all_masks p.1 p.2 c j k)
        rw [update2, if_pos ⟨hj, hk⟩, hj, hk]
        exact hg

theorem run_pixels_ok_of_bounded (img : ℕ → ℕ → ℕ) :
    ∀ L : List (ℕ × ℕ), (∀ p ∈ L, img p.1 p.2 < 4) →
      ∀ s, ∃ s', run_pixels img L s = .ok s' := by
  intro L
  induction L with
  | nil => intro _ s; exact ⟨s, rfl⟩
  | cons p T ih =>
    intro hb s
    have hp : img p.1 p.2 < colors_overlay.length := by
      have := hb p (List.mem_cons_self _ _)
      simpa [colors_overlay] using this
    obtain ⟨s', hs'⟩ := ih (fun q hq => hb q (List.mem_cons_of_mem _ hq))
      ⟨s.num_images,
        update3 s.final_arrays (img p.1 p.2) p.1 p.2 black,
        update3 s.binary_arrays (img p.1 p.2) p.1 p.2 1,
        update2 s.all_masks p.1 p.2 (colors_overlay.get ⟨img p.1 p.2, hp⟩)⟩
    refine ⟨s', ?_⟩
    simp only [run_pixels]
    rw [List.get?_eq_get hp]
    exact hs'

theorem pixel_label_small (H W : ℕ) (img : ℕ → ℕ → ℕ)
    (hmax : np_max H W img ≤ 3) :
    ∀ p ∈ pixelList H W, img p.1 p.2 < 4 := by
  intro p hp
  obtain ⟨hj, hk⟩ := (mem_pixelList H W p.1 p.2).mp hp
  have := label_le_np_max H W img p.1 p.2 hj hk
  omega

/-- C2 (amended): for a nonempty label map all of whose labels lie within the
4-entry palette (max label at most 3), result_image_generator succeeds with
num_images = max + 1 binary mask layers, layer i holding 1 at (j,k) exactly
when the label there is i and 0 otherwise; consequently each pixel is
foreground in exactly one layer, whose index is below num_images. -/
theorem result_image_generator_masks_partition (H W : ℕ)
    (img : ℕ → ℕ → ℕ) (ori : ℕ → ℕ → Color) (hH : 0 < H) (hW : 0 < W)
    (hmax : np_max H W img ≤ 3) :
    ∃ s, result_image_generator H W img ori = .ok s ∧
      s.num_images = np_max H W img + 1 ∧
      (∀ i j k, j < H → k < W →
        s.binary_arrays i j k = if img j k = i then 1 else 0) ∧
      (∀ j k, j < H → k < W →
        img j k < s.num_images ∧ ∃! i, s.binary_arrays i j k = 1) := by
  obtain ⟨s, hs⟩ := run_pixels_ok_of_bounded img (pixelList H W)
    (pixel_label_small H W img hmax)
    (gen_base_arrays ori (np_max H W img + 1))
  have hchar : ∀ i j k, j < H → k < W →
      s.binary_arrays i j k = if img j k = i then 1 else 0 := by
    intro i j k hj hk
    have hb := run_pixels_binary img (pixelList H W) _ _ hs i j k
    rw [hb]
    have hmem : (j, k) ∈ pixelList H W := (mem_pixelList H W j k).mpr ⟨hj, hk⟩
    by_cases hi : img j k = i
    · rw [if_pos ⟨hmem, hi⟩, if_pos hi]
    · rw [if_neg (fun hc => hi hc.2), if_neg hi]
      rfl
  have hnum : s.num_images = np_max H W img + 1 :=
    run_pixels_num img (pixelList H W) _ _ hs
  refine ⟨s, hs, hnum, hchar, ?_⟩
  intro j k hj hk
  constructor
  · rw [hnum]
    have := label_le_np_max H W img j k hj hk
    omega
  · refine ⟨img j k, ?_, ?_⟩
    · show s.binary_arrays (img j k) j k = 1
      rw [hchar (img j k) j k hj hk, if_pos rfl]
    · intro y hy
      have hy2 : s.binary_arrays y j k = 1 := hy
      rw [hchar y j k hj hk] at hy2
      by_cases hi : img j k = y
      · rw [hi]
      · rw [if_neg hi] at hy2
        exact absurd hy2 (by norm_num)

/-- C2 witness: the amended theorem applied to the 1×1 label map with label 0. -/
theorem result_image_generator_masks_partition_witness :
    ∃ s, result_image_generator 1 1 (fun _ _ => 0) (fun _ _ => black) =
        .ok s ∧
      s.num_images = np_max 1 1 (fun _ _ => 0) + 1 ∧
      (∀ i j k, j < 1 → k < 1 →
        s.binary_arrays i j k = if (fun _ _ => 0) j k = i then 1 else 0) ∧
      (∀ j k, j < 1 → k < 1 →
        (fun _ _ => 0) j k < s.num_images ∧
          ∃! i, s.binary_arrays i j k = 1) :=
  result_image_generator_masks_partition 1 1 (fun _ _ => 0)
    (fun _ _ => black) (by decide) (by decide) (by decide)

/-- C2 counterexample: on the 1×1 label map with the single label 4 (so
K = max + 1 = 5), result_image_generator raises IndexError from
colors_overlay[4] instead of producing the K binary masks the claim asserts
for every label map. -/
theorem result_image_generator_label_four_error :
    result_image_generator 1 1 (fun _ _ => 4) (fun _ _ => black) =
      .error CvErr.indexError := by
  rfl

/-- C7: for a nonempty label map with maximum label at most 3 (K at most 4),
every pixel of the combined overlay all_masks holds exactly the palette entry
colors_overlay indexed by that pixel's label. -/
theorem result_image_generator_combined_overlay (H W : ℕ)
    (img : ℕ → ℕ → ℕ) (ori : ℕ → ℕ → Color) (hH : 0 < H) (hW : 0 < W)
    (hmax : np_max H W img ≤ 3) :
    ∃ s, result_image_generator H W img ori = .ok s ∧
      ∀ j k, j < H → k < W →
        colors_overlay.get? (img j k) = some (s.all_masks j k) := by
  obtain ⟨s, hs⟩ := run_pixels_ok_of_bounded img (pixelList H W)
    (pixel_label_small H W img hmax)
    (gen_base_arrays ori (np_max H W img + 1))
  refine ⟨s, hs, ?_⟩
  intro j k hj hk
  exact run_pixels_all_masks img (pixelList H W) _ _ hs j k
    ((mem_pixelList H W j k).mpr ⟨hj, hk⟩)

/-- C7 witness: the theorem applied to a 1×1 label map with label 3. -/
theorem result_image_generator_combined_overlay_witness :
    ∃ s, result_image_generator 1 1 (fun _ _ => 3) (fun _ _ => black) =
        .ok s ∧
      ∀ j k, j < 1 → k < 1 →
        colors_overlay.get? ((fun _ _ => 3) j k) = some (s.all_masks j k) :=
  result_image_generator_combined_overlay 1 1 (fun _ _ => 3)
    (fun _ _ => black) (by decide) (by decide) (by decide)

/-- C8: in the per-cluster overlay for cluster i, the pixels whose label is i
are set to black, and every other pixel retains exactly the original image's
value (for every label map within the palette so that the overlays are
produced at all). -/
theorem result_image_generator_overlay_frame (H W : ℕ)
    (img : ℕ → ℕ → ℕ) (ori : ℕ → ℕ → Color) (hH : 0 < H) (hW : 0 < W)
    (hmax : np_max H W img ≤ 3) :
    ∃ s, result_image_generator H W img ori = .ok s ∧
      ∀ i j k, j < H → k < W →
        (img j k = i → s.final_arrays i j k = black) ∧
        (img j k ≠ i → s.final_arrays i j k = ori j k) := by
  obtain ⟨s, hs⟩ := run_pixels_ok_of_bounded img (pixelList H W)
    (pixel_label_small H W img hmax)
    (gen_base_arrays ori (np_max H W img + 1))
  refine ⟨s, hs, ?_⟩
  intro i j k hj hk
  have hf := run_pixels_final img (pixelList H W) _ _ hs i j k
  have hmem : (j, k) ∈ pixelList H W := (mem_pixelList H W j k).mpr ⟨hj, hk⟩
  constructor
  · intro hi
    rw [hf, if_pos ⟨hmem, hi⟩]
  · intro hi
    rw [hf, if_neg (fun hc => hi hc.2)]
    rfl

/-- C8 witness: the theorem applied to a 1×1 label map with label 1 over a
non-black original image. -/
theorem result_image_generator_overlay_frame_witness :
    ∃ s, result_image_generator 1 1 (fun _ _ => 1)
        (fun _ _ => (7, 8, 9)) = .ok s ∧
      ∀ i j k, j < 1 → k < 1 →
        ((fun _ _ => 1) j k = i → s.final_arrays i j k = black) ∧
        ((fun _ _ => 1) j k ≠ i → s.final_arrays i j k =
          (fun _ _ => ((7, 8, 9) : Color)) j k) :=
  result_image_generator_overlay_frame 1 1 (fun _ _ => 1)
    (fun _ _ => (7, 8, 9)) (by decide) (by decide) (by decide)

/-- C9: result_image_generator is deterministic; two runs on pointwise equal
inputs produce equal overlay sets, mask sets and combined overlays. -/
theorem result_image_generator_deterministic (H W : ℕ)
    (clust1 clust2 : ℕ → ℕ → ℕ) (ori1 ori2 : ℕ → ℕ → Color)
    (hc : ∀ j k, clust1 j k = clust2 j k)
    (ho : ∀ j k, ori1 j k = ori2 j k) :
    result_image_generator H W clust1 ori1 =
      result_image_generator H W clust2 ori2 := by
  have h1 : clust1 = clust2 := funext fun j => funext fun k => hc j k
  have h2 : ori1 = ori2 := funext fun j => funext fun k => ho j k
  rw [h1, h2]

/-- C9 witness: the theorem applied twice to the same concrete 2×2 input. -/
theorem result_image_generator_deterministic_witness :
    result_image_generator 2 2 (fun j k => j + k) (fun _ _ => (1, 2, 3)) =
      result_image_generator 2 2 (fun j k => j + k) (fun _ _ => (1, 2, 3)) :=
  result_image_generator_deterministic 2 2 (fun j k => j + k)
    (fun j k => j + k) (fun _ _ => (1, 2, 3)) (fun _ _ => (1, 2, 3))
    (fun _ _ => rfl) (fun _ _ => rfl)

theorem filter_boolean_c400 : filter_boolean c400 = true := by
  rw [filter_boolean, if_pos (by norm_num [c400]), decide_eq_true_eq]
  refine ⟨by norm_num [c400], by norm_num [c400], ?_⟩
  norm_num [c400, roundness, np_pi]

/-- C10 witness: the theorem applied to a single 1×1 all-foreground mask whose
cv2 output is the one qualifying contour c400. -/
theorem selected_contours_divisor_nonzero_witness :
    filter_boolean c400 = true ∧ 4 * np_pi * c400.area ≠ 0 := by
  have hcg : contour_generator 1 1 (fun _ _ => 1) [c400] = ([c400], 1) := by
    rw [contour_generator, findContours, if_neg (by decide)]
    simp [List.filter, filter_boolean_c400]
  have hica : immune_cluster_analyzer 1 1 [((fun _ _ => 1), [c400])] =
      .ok (⟨[[c400]], [1], 0⟩, csv_results_compiler [c400]) := by
    simp [immune_cluster_analyzer, ica_step, hcg]
  exact selected_contours_divisor_nonzero 1 1 [((fun _ _ => 1), [c400])]
    ⟨[[c400]], [1], 0⟩ (csv_results_compiler [c400]) hica c400 (by simp)

/-- numpy image of arbitrary dimensionality: its shape and a total accessor
on index lists. -/
structure NDImage where
  shape : List ℕ
  data : List ℕ → ℕ

/-- Validation performed by seg.base_results_generator: each of the two
images must have exactly 3 dimensions, and both third extents must be 3,
each failure raising ValueError; the folder creation and the two cv2.imwrite
calls that follow are I/O outside the model. -/
def base_results_generator (original_image all_clust_image : NDImage) :
    Except CvErr Unit :=
  if original_image.shape.length ≠ 3 then .error .valueError
  else if all_clust_image.shape.length ≠ 3 then .error .valueError
  else if original_image.shape.getD 2 0 ≠ 3 ∨ all_clust_image.shape.getD 2 0 ≠ 3
    then .error .valueError
  else .ok ()

/-- Observable stages of image_postprocessing in execution order: the mask
and overlay computation (result_image_generator), the validating
base_results_generator, then the optional overlay, mask and csv outputs. -/
inductive PostEvent where
  | masksComputed : PostEvent
  | baseResults : PostEvent
  | overlaysWritten : PostEvent
  | masksWritten : PostEvent
  | csvWritten : PostEvent
deriving DecidableEq

/-- Reading the 3-channel pixel ori_img[j][k] of a numpy image; faithful for
images whose last axis has extent 3. -/
def pixelView (img : NDImage) : ℕ → ℕ → Color :=
  fun j k => (img.data [j, k, 0], img.data [j, k, 1], img.data [j, k, 2])

/-- The combined overlay all_masks as the H×W×3 numpy image handed to
base_results_generator. -/
def allMasksImage (H W : ℕ) (s : SegState) : NDImage :=
  ⟨[H, W, 3], fun idx =>
    match idx with
    | [j, k, 0] => (s.all_masks j k).1
    | [j, k, 1] => (s.all_masks j k).2.1
    | [j, k, 2] => (s.all_masks j k).2.2
    | _ => 0⟩

/-- Embedding of seg.image_postprocessing: result_image_generator runs on the
label map and image first; only then does base_results_generator perform the
shape validation (on the original image and the combined overlay); the
optional overlay / mask / csv stages follow.  The trace records the stages
that completed; the three optional stages are recorded as events only, their
computations being settled by the standalone embeddings above. -/
def image_postprocessing (H W : ℕ) (clusters : ℕ → ℕ → ℕ) (ori_img : NDImage)
    (gen_overlays gen_masks gen_csv : Bool) :
    List PostEvent × Except CvErr Unit :=
  match result_image_generator H W clusters (pixelView ori_img) with
  | .error e => ([], .error e)
  | .ok s =>
    match base_results_generator ori_img (allMasksImage H W s) with
    | .error e => ([.masksComputed], .error e)
    | .ok _ =>
      ([.masksComputed, .baseResults] ++
        (if gen_overlays then [.overlaysWritten] else []) ++
        (if gen_masks then [.masksWritten] else []) ++
        (if gen_csv then [.csvWritten] else []), .ok ())

/-- C5 counterexample: with the 1×1 label map [[0]] and a 4-dimensional image
of shape 1×1×1×3, image_postprocessing first computes all masks and overlays
(the trace records masksComputed) and only afterwards raises the
shape-validation ValueError from base_results_generator; the error is not
raised before processing of the label map and image as the claim states. -/
theorem image_postprocessing_validates_after_processing :
    (image_postprocessing 1 1 (fun _ _ => 0)
        ⟨[1, 1, 1, 3], fun _ => 0⟩ true false true).2 =
      .error CvErr.valueError ∧
    (image_postprocessing 1 1 (fun _ _ => 0)
        ⟨[1, 1, 1, 3], fun _ => 0⟩ true false true).1 =
      [PostEvent.masksComputed] := by
  constructor <;> rfl

/-- C5 (amended): for every image whose dimension count is not 3 here
represented by the 4-dimensional H×W×c×3 family, on which the mask
computation itself still succeeds exactly as in the source, and every
nonempty label map within the palette, image_postprocessing does raise the
shape-validation ValueError, but only after result_image_generator has
computed the masks and overlays: the trace at the error is [masksComputed],
not empty. -/
theorem image_postprocessing_shape_error_after_masks (H W c : ℕ)
    (clusters : ℕ → ℕ → ℕ) (data : List ℕ → ℕ)
    (gen_overlays gen_masks gen_csv : Bool) (hH : 0 < H) (hW : 0 < W)
    (hmax : np_max H W clusters ≤ 3) :
    image_postprocessing H W clusters ⟨[H, W, c, 3], data⟩
        gen_overlays gen_masks gen_csv =
      ([PostEvent.masksComputed], .error CvErr.valueError) := by
  obtain ⟨s, hs⟩ := run_pixels_ok_of_bounded clusters (pixelList H W)
    (pixel_label_small H W clusters hmax)
    (gen_base_arrays (pixelView ⟨[H, W, c, 3], data⟩)
      (np_max H W clusters + 1))
  have hs2 : result_image_generator H W clusters
      (pixelView ⟨[H, W, c, 3], data⟩) = .ok s := hs
  have hval : base_results_generator ⟨[H, W, c, 3], data⟩
      (allMasksImage H W s) = .error .valueError := by
    rw [base_results_generator]
    norm_num
  simp only [image_postprocessing, hs2, hval]

/-- C5 witness: the amended theorem applied to a concrete 1×1×1×3 image and
the 1×1 label map [[0]]. -/
theorem image_postprocessing_shape_error_after_masks_witness :
    image_postprocessing 1 1 (fun _ _ => 0) ⟨[1, 1, 1, 3], fun _ => 0⟩
        true false true =
      ([PostEvent.masksComputed], .error CvErr.valueError) :=
  image_postprocessing_shape_error_after_masks 1 1 1 (fun _ _ => 0)
    (fun _ => 0) true false true (by decide) (by decide) (by decide)

end Tilseg
